import Mathlib

/-!
Shallow embedding of icarus/models/cache.py: the cache replacement policies
(NullCache, LruCache, LfuCache, FifoCache, RandCache) and the two wrapper
constructors (rand_insert_cache, keyval_cache), together with proofs of the
specified properties.

Modelling conventions:
- Keys are natural numbers (any hashable type in Python; Nat is enough to
  express every claim, including the Python truthiness of the key 0).
- The LRU doubly linked list (top/bottom pointers plus up/down links) is
  modelled as the list of keys from top (most recent) to bottom (least
  recent); the hash index _cache holds exactly the keys of that list, so a
  single list field represents both coherently.
- Python dicts are modelled as association lists in insertion order
  (update keeps the position, fresh keys are appended), matching dict
  semantics; LfuCache._cache maps a key to its (frequency, sequence) pair.
- The process-wide random module is modelled as an explicit state (Rng)
  threaded through every operation that draws from it: random.seed
  replaces the global state, random.randint and random.random consume one
  draw.  The concrete generator is a linear congruential step; the claims
  proved below do not depend on the particular update function.
- Constructors that can raise are total functions into Except PyError,
  distinguishing TypeError from ValueError.
-/

namespace Icarus

abbrev Key := Nat

/-- Python exceptions raised by the constructors in cache.py. -/
inductive PyError where
  | typeError (msg : String)
  | valueError (msg : String)
deriving DecidableEq

/-! ## The global random module, as explicit state -/

/-- State of the process-wide random number generator (the random module). -/
abbrev Rng := Nat

/-- One step of the global generator: a linear congruential update.
The draw returned is the new state itself, always below 2 ^ 31. -/
def rngNext (g : Rng) : Nat × Rng :=
  ((1103515245 * g + 12345) % 2 ^ 31, (1103515245 * g + 12345) % 2 ^ 31)

/-- random.seed (seed): the global generator state is replaced by a value
determined solely by the seed, regardless of the previous state. -/
def pySeed (seed : Nat) : Rng := seed % 2 ^ 31

/-- random.randint (lo, hi): uniform integer draw in the closed interval
from lo to hi, consuming one step of the global generator. -/
def pyRandint (lo hi : Nat) (g : Rng) : Nat × Rng :=
  (lo + (rngNext g).1 % (hi + 1 - lo), (rngNext g).2)

/-- random.random (): a draw in the half-open unit interval, consuming one
step of the global generator.  Modelled as an exact rational n / 2 ^ 31
with n below 2 ^ 31. -/
def pyRandom (g : Rng) : ℚ × Rng :=
  (((rngNext g).1 : ℚ) / ((2 ^ 31 : Nat) : ℚ), (rngNext g).2)

/-- Success test for the Except values returned by the constructors. -/
def isOk {ε α : Type} : Except ε α → Bool
  | .ok _ => true
  | .error _ => false

/-- Did the computation raise a ValueError (a configuration error)? -/
def isValueError {α : Type} : Except PyError α → Bool
  | .error (.valueError _) => true
  | _ => false

/-- Did the computation raise a TypeError? -/
def isTypeError {α : Type} : Except PyError α → Bool
  | .error (.typeError _) => true
  | _ => false

/-! ## NullCache -/

/-- NullCache: the dummy cache that never stores anything. It has no state. -/
structure NullCache where
deriving DecidableEq

namespace NullCache

def len (_ : NullCache) : Nat := 0

def maxlen (_ : NullCache) : Nat := 0

def dump (_ : NullCache) : List Key := []

def has (_ : NullCache) (_ : Key) : Bool := false

def get (c : NullCache) (_ : Key) : NullCache × Bool := (c, false)

def put (c : NullCache) (_ : Key) : NullCache × Option Key := (c, none)

def clear (c : NullCache) : NullCache := c

end NullCache

/-! ## LruCache -/

/-- LruCache state: the recency list from top (most recently used) to
bottom (least recently used).  The Python object keeps a dict _cache from
key to node plus top and bottom pointers of a doubly linked list; the
traversal top-to-bottom visits exactly the dict keys, so the single list
here represents dict and linked list together. -/
structure LruCache where
  list : List Key
  maxlen : Nat
deriving DecidableEq

namespace LruCache

/-- LruCache.__init__: raises ValueError unless maxlen is positive. -/
def init (maxlen : Int) : Except PyError LruCache :=
  if maxlen ≤ 0 then .error (.valueError ("maxlen must be positive"))
  else .ok { list := [], maxlen := maxlen.toNat }

def len (c : LruCache) : Nat := c.list.length

/-- LruCache.dump: top-to-bottom traversal of the linked list. -/
def dump (c : LruCache) : List Key := c.list

/-- LruCache.has: membership in the _cache dict. -/
def has (c : LruCache) (k : Key) : Bool := k ∈ c.list

/-- LruCache.get: on a hit the node is unlinked from its position and
relinked at the top (if it is not already the top node); misses leave the
state unchanged. -/
def get (c : LruCache) (k : Key) : LruCache × Bool :=
  if k ∈ c.list then
    if c.list.head? = some k then (c, true)
    else ({ c with list := k :: c.list.erase k }, true)
  else (c, false)

/-- LruCache.put: a hit is promoted by get and nothing is evicted; a miss
pushes a new top node and, if the size now exceeds maxlen, unlinks and
returns the bottom node.  The branch comparing bottom with top is the
source's special case for a single-element list; it is unreachable when
maxlen is positive, which the constructor enforces. -/
def put (c : LruCache) (k : Key) : LruCache × Option Key :=
  if (c.get k).2 then ((c.get k).1, none)
  else
    -- a miss leaves get's state unchanged; push a new top node
    let l := k :: c.list
    if l.length ≤ c.maxlen then ({ c with list := l }, none)
    else if l.length = 1 then ({ c with list := [] }, none)
    else ({ c with list := l.dropLast }, l.getLast?)

def clear (c : LruCache) : LruCache := { c with list := [] }

/-- Folding put over a list of keys, from left to right. -/
def run (c : LruCache) (ks : List Key) : LruCache :=
  ks.foldl (fun c k => (c.put k).1) c

end LruCache

/-! ## LfuCache -/

/-- LfuCache state: the dict from key to its (frequency, sequence) pair,
as an association list in insertion order, plus the monotonic counter t. -/
structure LfuCache where
  cache : List (Key × Nat × Nat)
  t : Nat
  maxlen : Nat
deriving DecidableEq

/-- Python tuple comparison on (frequency, sequence) pairs:
lexicographic strict order. -/
def pairLt (a b : Nat × Nat) : Bool :=
  a.1 < b.1 || (a.1 == b.1 && a.2 < b.2)

/-- One step of Python min with a key function: keep the earlier entry
unless the new one has a strictly smaller (frequency, sequence) pair. -/
def minPairStep (m x : Key × Nat × Nat) : Key × Nat × Nat :=
  if pairLt x.2 m.2 then x else m

/-- min (dict, key = value): the first entry whose pair is minimal. -/
def minEntry : List (Key × Nat × Nat) → Option (Key × Nat × Nat)
  | [] => none
  | e :: es => some (es.foldl minPairStep e)

namespace LfuCache

/-- LfuCache.__init__: raises ValueError unless maxlen is positive. -/
def init (maxlen : Int) : Except PyError LfuCache :=
  if maxlen ≤ 0 then .error (.valueError ("maxlen must be positive"))
  else .ok { cache := [], t := 0, maxlen := maxlen.toNat }

def len (c : LfuCache) : Nat := c.cache.length

def has (c : LfuCache) (k : Key) : Bool := c.cache.any (fun e => e.1 == k)

/-- LfuCache.dump: keys sorted by (frequency, sequence) pair in
descending order (Python sorted with reverse true, which is stable). -/
def dump (c : LfuCache) : List Key :=
  (c.cache.mergeSort (fun a b => !pairLt a.2 b.2)).map (fun e => e.1)

/-- LfuCache.get: a hit increments the frequency, leaving the sequence
number unchanged. -/
def get (c : LfuCache) (k : Key) : LfuCache × Bool :=
  if c.has k then
    ({ c with cache :=
        c.cache.map (fun e => if e.1 == k then (e.1, e.2.1 + 1, e.2.2) else e) },
      true)
  else (c, false)

/-- LfuCache.put: an absent key is inserted with frequency 1 and the next
sequence number; if the size then exceeds maxlen, the entry with the
minimal (frequency, sequence) pair is deleted and its key returned.
A present key leaves the state unchanged. -/
def put (c : LfuCache) (k : Key) : LfuCache × Option Key :=
  if c.has k then (c, none)
  else
    let t1 := c.t + 1
    let c1 := c.cache ++ [(k, 1, t1)]
    if c1.length > c.maxlen then
      match minEntry c1 with
      | some m =>
          ({ cache := c1.eraseP (fun e => e.1 == m.1), t := t1, maxlen := c.maxlen },
            some m.1)
      | none => ({ cache := c1, t := t1, maxlen := c.maxlen }, none)
    else ({ cache := c1, t := t1, maxlen := c.maxlen }, none)

/-- LfuCache.clear: clears the dict only; the counter t is not reset. -/
def clear (c : LfuCache) : LfuCache := { c with cache := [] }

def run (c : LfuCache) (ks : List Key) : LfuCache :=
  ks.foldl (fun c k => (c.put k).1) c

/-- Well-formedness of an LfuCache state, true of every state reachable
from construction: keys are distinct (it is a dict), sequence numbers are
distinct and never exceed the current counter t. -/
def WF (c : LfuCache) : Prop :=
  (c.cache.map (fun e => e.1)).Nodup ∧
  (c.cache.map (fun e => e.2.2)).Nodup ∧
  ∀ e ∈ c.cache, e.2.2 ≤ c.t

instance (c : LfuCache) : Decidable c.WF := by
  unfold WF; infer_instance

end LfuCache

/-! ## FifoCache -/

/-- FifoCache state: the deque d in newest-to-oldest order (appendleft
pushes new keys at the front, pop evicts from the back).  The membership
set _cache always holds exactly the elements of d, so the single list
represents both. -/
structure FifoCache where
  d : List Key
  maxlen : Nat
deriving DecidableEq

namespace FifoCache

/-- FifoCache.__init__: raises ValueError unless maxlen is positive. -/
def init (maxlen : Int) : Except PyError FifoCache :=
  if maxlen ≤ 0 then .error (.valueError ("maxlen must be positive"))
  else .ok { d := [], maxlen := maxlen.toNat }

def len (c : FifoCache) : Nat := c.d.length

def dump (c : FifoCache) : List Key := c.d

def has (c : FifoCache) (k : Key) : Bool := k ∈ c.d

/-- FifoCache.get is a pure membership test. -/
def get (c : FifoCache) (k : Key) : FifoCache × Bool := (c, c.has k)

/-- FifoCache.put: an absent key is appended at the left (newest) end;
if the size then exceeds maxlen, the rightmost (oldest) key is popped,
removed from the set and returned. -/
def put (c : FifoCache) (k : Key) : FifoCache × Option Key :=
  let d := if k ∈ c.d then c.d else k :: c.d
  if d.length > c.maxlen then ({ c with d := d.dropLast }, d.getLast?)
  else ({ c with d := d }, none)

def clear (c : FifoCache) : FifoCache := { c with d := [] }

def run (c : FifoCache) (ks : List Key) : FifoCache :=
  ks.foldl (fun c k => (c.put k).1) c

end FifoCache

/-! ## RandCache -/

/-- RandCache state: the membership set _cache (a list of distinct keys)
and the fixed-length slot array a of length maxlen.  np.empty fills the
fresh array with garbage, modelled as none entries; an occupied slot
holds some key. -/
structure RandCache where
  cache : List Key
  a : List (Option Key)
  maxlen : Nat
deriving DecidableEq

namespace RandCache

/-- RandCache.__init__: np.empty raises ValueError on a negative length
before the maxlen check, which raises ValueError on zero. -/
def init (maxlen : Int) : Except PyError RandCache :=
  if maxlen < 0 then .error (.valueError ("negative dimensions are not allowed"))
  else if maxlen ≤ 0 then .error (.valueError ("maxlen must be positive"))
  else .ok { cache := [], a := List.replicate maxlen.toNat none, maxlen := maxlen.toNat }

def len (c : RandCache) : Nat := c.cache.length

def dump (c : RandCache) : List Key := c.cache

def has (c : RandCache) (k : Key) : Bool := k ∈ c.cache

def get (c : RandCache) (k : Key) : RandCache × Bool := (c, c.has k)

/-- RandCache.put: an absent key fills the next free slot while the cache
is below capacity; at capacity, a slot index is drawn uniformly from the
global generator, the key there is evicted and the slot overwritten.  The
fallback branch corresponds to the slot holding np.empty garbage, where
the Python code would raise KeyError; it is unreachable from a
constructed cache (proved below). -/
def put (c : RandCache) (k : Key) (g : Rng) : (RandCache × Rng) × Option Key :=
  if k ∈ c.cache then ((c, g), none)
  else if c.cache.length = c.maxlen then
    let i := (pyRandint 0 (c.maxlen - 1) g).1
    let g1 := (pyRandint 0 (c.maxlen - 1) g).2
    match c.a.getD i none with
    | some evicted =>
        (({ c with cache := k :: c.cache.erase evicted, a := c.a.set i (some k) }, g1),
          some evicted)
    | none => ((c, g1), none)
  else
    (({ c with cache := k :: c.cache, a := c.a.set c.cache.length (some k) }, g), none)

/-- RandCache.clear: clears the set only; the slot array is not reset. -/
def clear (c : RandCache) : RandCache := { c with cache := [] }

def run (c : RandCache) (g : Rng) (ks : List Key) : RandCache × Rng :=
  ks.foldl (fun st k => (put st.1 k st.2).1) (c, g)

/-- Well-formedness of a RandCache state, true of every state reachable
from construction: the slot array has length maxlen, the set has no
duplicates, and the occupied slots (the first len positions) hold exactly
the members of the set. -/
def WF (c : RandCache) : Prop :=
  c.a.length = c.maxlen ∧ c.cache.Nodup ∧
  (c.a.take c.cache.length).Perm (c.cache.map some)

instance (c : RandCache) : Decidable c.WF := by
  unfold WF; infer_instance

end RandCache

/-! ## rand_insert_cache -/

/-- rand_insert_cache (cache, p, seed): after an isinstance check and a
range check on p, the cache is deep-copied and random.seed (seed) is
called on the process-wide generator.  The function returns the copied
cache together with the new global generator state; the previous global
state g is discarded by the reseeding.  The isCache flag mirrors the
dynamic isinstance (cache, Cache) test. -/
def rand_insert_cache (σ : Type) (isCache : Bool) (p : ℚ) (seed : Nat) (inner : σ)
    (_g : Rng) : Except PyError (σ × Rng) :=
  if !isCache then
    .error (.typeError ("cache must be an instance of Cache or its subclasses"))
  else if p < 0 ∨ p > 1 then
    .error (.valueError ("p must be a value between 0 and 1"))
  else .ok (inner, pySeed seed)

/-- The global generator state observed after rand_insert_cache returns
successfully: random.seed (seed) has replaced the previous state. -/
def randInsertRngAfter (seed : Nat) (_g : Rng) : Rng := pySeed seed

/-- rand_put (k): draw random.random () from the global generator; if the
draw is below p delegate to the wrapped put and return its result,
otherwise return None leaving the inner cache untouched. -/
def rand_put (σ : Type) (put : σ → Key → σ × Option Key) (p : ℚ)
    (c : σ) (g : Rng) (k : Key) : (σ × Rng) × Option Key :=
  let x := (pyRandom g).1
  let g1 := (pyRandom g).2
  if x < p then (((put c k).1, g1), (put c k).2)
  else ((c, g1), none)

/-- Folding rand_put over a list of keys, threading cache and generator. -/
def randInsertRun (σ : Type) (put : σ → Key → σ × Option Key) (p : ℚ)
    (c : σ) (g : Rng) (ks : List Key) : σ × Rng :=
  ks.foldl (fun st k => (rand_put σ put p st.1 st.2 k).1) (c, g)

/-- Folding a bare put over a list of keys (the unwrapped cache). -/
def innerRun (σ : Type) (put : σ → Key → σ × Option Key)
    (c : σ) (ks : List Key) : σ :=
  ks.foldl (fun c k => (put c k).1) c

/-! ## keyval_cache -/

/-- Association-list update with Python dict semantics: an existing key
is updated in place, a fresh key is appended. -/
def dictSet (V : Type) (l : List (Key × V)) (k : Key) (v : V) : List (Key × V) :=
  if l.any (fun e => e.1 == k) then
    l.map (fun e => if e.1 == k then (k, v) else e)
  else l ++ [(k, v)]

/-- Association-list lookup. -/
def dictGet (V : Type) (l : List (Key × V)) (k : Key) : Option V :=
  (l.find? (fun e => e.1 == k)).map (fun e => e.2)

/-- Association-list deletion of the entry for a key. -/
def dictErase (V : Type) (l : List (Key × V)) (k : Key) : List (Key × V) :=
  l.eraseP (fun e => e.1 == k)

/-- State of a cache modified by keyval_cache: the deep-copied inner
cache plus the auxiliary value dict _vals, empty at wrapping time. -/
structure KVCache (σ V : Type) where
  inner : σ
  vals : List (Key × V)
deriving DecidableEq

/-- keyval_cache (cache): after an isinstance check, the cache is
deep-copied and given an empty _vals dict. -/
def keyval_cache (σ V : Type) (isCache : Bool) (inner : σ) :
    Except PyError (KVCache σ V) :=
  if !isCache then
    .error (.typeError ("cache must be an instance of Cache or its subclasses"))
  else .ok { inner := inner, vals := [] }

/-- kv_put (k, v): store v under k in _vals, delegate to the wrapped put,
and on a truthy evicted key pop its value and return the pair.  The
source tests the evicted key with a bare if, so an evicted key equal to 0
is falsy: its value stays in _vals and None is returned.  The inner none
branch is the KeyError the source would raise if the evicted key had no
stored value. -/
def kv_put (σ V : Type) (put : σ → Key → σ × Option Key)
    (c : KVCache σ V) (k : Key) (v : V) : KVCache σ V × Option (Key × V) :=
  let vals1 := dictSet V c.vals k v
  let c1 := (put c.inner k).1
  match (put c.inner k).2 with
  | some e =>
      if e != 0 then
        -- the bare Python if on the evicted key: the key 0 is falsy
        match dictGet V vals1 e with
        | some val => ({ inner := c1, vals := dictErase V vals1 e }, some (e, val))
        | none => ({ inner := c1, vals := vals1 }, none)
      else ({ inner := c1, vals := vals1 }, none)
  | none => ({ inner := c1, vals := vals1 }, none)

/-- kv_get (k): delegate to the wrapped get; on a hit return the stored
value from _vals, otherwise None. -/
def kv_get (σ V : Type) (get : σ → Key → σ × Bool)
    (c : KVCache σ V) (k : Key) : KVCache σ V × Option V :=
  if (get c.inner k).2 then
    ({ c with inner := (get c.inner k).1 }, dictGet V c.vals k)
  else ({ c with inner := (get c.inner k).1 }, none)

/-- kv_dump (): the wrapped dump with each key paired with its stored
value (none models the KeyError the source would raise on a key missing
from _vals). -/
def kv_dump (σ V : Type) (dump : σ → List Key)
    (c : KVCache σ V) : List (Key × Option V) :=
  (dump c.inner).map (fun k => (k, dictGet V c.vals k))

/-- kv_clear (): clear the wrapped cache and the _vals dict together. -/
def kv_clear (σ V : Type) (clear : σ → σ) (c : KVCache σ V) : KVCache σ V :=
  { inner := clear c.inner, vals := [] }

end Icarus

/-! # Theorems -/

namespace Icarus

/-! ## General list lemmas -/

/-- Setting index i is, up to permutation, consing the new value onto the
list with the element at i removed. -/
theorem set_perm_cons_eraseIdx {α : Type} (l : List α) (i : Nat) (x : α)
    (h : i < l.length) : (l.set i x).Perm (x :: l.eraseIdx i) := by
  induction l generalizing i with
  | nil => simp at h
  | cons a t ih =>
    cases i with
    | zero => simp
    | succ n =>
      have hn : n < t.length := by simpa using h
      have h1 : (a :: t.set n x).Perm (a :: (x :: t.eraseIdx n)) := (ih n hn).cons a
      have h2 : (a :: (x :: t.eraseIdx n)).Perm (x :: a :: t.eraseIdx n) :=
        List.Perm.swap x a _
      exact h1.trans h2

/-- Setting a position to the value already there is the identity. -/
theorem set_getElem_eq_self {α : Type} (l : List α) (i : Nat)
    (h : i < l.length) : l.set i l[i] = l := by
  induction l generalizing i with
  | nil => simp at h
  | cons a t ih =>
    cases i with
    | zero => rfl
    | succ n =>
      have hn : n < t.length := by simpa using h
      simpa using ih n hn

/-- A list is a permutation of the element at any valid index consed onto
the rest. -/
theorem perm_cons_getElem_eraseIdx {α : Type} (l : List α) (i : Nat)
    (h : i < l.length) : l.Perm (l[i] :: l.eraseIdx i) := by
  have := set_perm_cons_eraseIdx l i l[i] h
  rwa [set_getElem_eq_self l i h] at this

/-- Setting the position just after a prefix replaces the appended
singleton. -/
theorem set_append_singleton {α : Type} (l : List α) (v x : α) :
    (l ++ [v]).set l.length x = l ++ [x] := by
  induction l with
  | nil => rfl
  | cons a t ih => simp [ih]

/-- Entries of a list with nodup image under f are determined by their
image. -/
theorem eq_of_nodup_map_eq {α β : Type} {f : α → β} {l : List α}
    (h : (l.map f).Nodup) {x y : α} (hx : x ∈ l) (hy : y ∈ l)
    (hf : f x = f y) : x = y :=
  List.inj_on_of_nodup_map h hx hy hf

/-! ## Lexicographic pair order -/

theorem pairLt_iff (a b : Nat × Nat) :
    pairLt a b = true ↔ (a.1 < b.1 ∨ (a.1 = b.1 ∧ a.2 < b.2)) := by
  simp [pairLt]

theorem pairLt_eq_false_iff (a b : Nat × Nat) :
    pairLt a b = false ↔ (b.1 < a.1 ∨ (b.1 = a.1 ∧ b.2 ≤ a.2)) := by
  rw [← Bool.not_eq_true, pairLt_iff]
  omega

/-! ## Python min over the LFU dict -/

theorem foldl_minPairStep_mem (es : List (Key × Nat × Nat)) :
    ∀ e, es.foldl minPairStep e ∈ e :: es := by
  induction es with
  | nil => intro e; simp
  | cons x es ih =>
    intro e
    simp only [List.foldl_cons]
    rcases List.mem_cons.mp (ih (minPairStep e x)) with h1 | h1
    · rw [h1]
      unfold minPairStep
      split
      · exact List.mem_cons_of_mem _ (List.mem_cons_self _ _)
      · exact List.mem_cons_self _ _
    · exact List.mem_cons_of_mem _ (List.mem_cons_of_mem _ h1)

theorem foldl_minPairStep_min (es : List (Key × Nat × Nat)) :
    ∀ e x, x ∈ e :: es → pairLt x.2 (es.foldl minPairStep e).2 = false := by
  induction es with
  | nil =>
    intro e x hx
    simp only [List.mem_cons, List.not_mem_nil, or_false] at hx
    subst hx
    simp only [List.foldl_nil]
    rw [pairLt_eq_false_iff]
    omega
  | cons y es ih =>
    intro e x hx
    simp only [List.foldl_cons]
    have hA := ih (minPairStep e y) (minPairStep e y) (List.mem_cons_self _ _)
    have hB : ∀ z ∈ es, pairLt z.2 (es.foldl minPairStep (minPairStep e y)).2 = false :=
      fun z hz => ih (minPairStep e y) z (List.mem_cons_of_mem _ hz)
    rcases List.mem_cons.mp hx with rfl | hx1
    · by_cases hy : pairLt y.2 x.2 = true
      · have hstep : minPairStep x y = y := by simp [minPairStep, hy]
        rw [hstep] at hA ⊢
        rw [pairLt_eq_false_iff] at hA ⊢
        rw [pairLt_iff] at hy
        omega
      · have hstep : minPairStep x y = x := by
          simp only [minPairStep, ite_eq_right_iff]
          intro hc; exact absurd hc hy
        rw [hstep] at hA ⊢
        exact hA
    · rcases List.mem_cons.mp hx1 with rfl | hx2
      · by_cases hy : pairLt x.2 e.2 = true
        · have hstep : minPairStep e x = x := by simp [minPairStep, hy]
          rw [hstep] at hA ⊢
          exact hA
        · have hy2 : pairLt x.2 e.2 = false := by
            revert hy; cases pairLt x.2 e.2 <;> simp
          have hstep : minPairStep e x = e := by simp [minPairStep, hy2]
          rw [hstep] at hA ⊢
          rw [pairLt_eq_false_iff] at hA ⊢
          rw [pairLt_eq_false_iff] at hy2
          omega
      · exact hB x hx2

/-- The entry chosen by min is a member attaining the minimum. -/
theorem minEntry_spec {l : List (Key × Nat × Nat)} {m : Key × Nat × Nat}
    (h : minEntry l = some m) :
    m ∈ l ∧ ∀ x ∈ l, pairLt x.2 m.2 = false := by
  cases l with
  | nil => simp [minEntry] at h
  | cons e es =>
    simp only [minEntry, Option.some.injEq] at h
    subst h
    exact ⟨foldl_minPairStep_mem es e, fun x hx => foldl_minPairStep_min es e x hx⟩

/-- min of a nonempty list returns an entry. -/
theorem minEntry_isSome {l : List (Key × Nat × Nat)} (h : l ≠ []) :
    ∃ m, minEntry l = some m := by
  cases l with
  | nil => exact absurd rfl h
  | cons e es => exact ⟨es.foldl minPairStep e, rfl⟩

/-! ## LruCache lemmas -/

theorem LruCache.get_miss {c : LruCache} {k : Key} (h : k ∉ c.list) :
    c.get k = (c, false) := by
  simp [LruCache.get, h]

theorem LruCache.get_fst_list_length (c : LruCache) (k : Key) :
    ((c.get k).1).list.length = c.list.length := by
  unfold LruCache.get
  split
  · split
    · rfl
    · rename_i hmem _
      have hpos : 0 < c.list.length := List.length_pos.mpr (List.ne_nil_of_mem hmem)
      simp only [List.length_cons, List.length_erase_of_mem hmem]
      omega
  · rfl

theorem LruCache.get_fst_maxlen (c : LruCache) (k : Key) :
    ((c.get k).1).maxlen = c.maxlen := by
  unfold LruCache.get
  split
  · split <;> rfl
  · rfl

theorem LruCache.put_fst_maxlen_lru (c : LruCache) (k : Key) :
    ((c.put k).1).maxlen = c.maxlen := by
  simp only [LruCache.put]
  split
  · exact LruCache.get_fst_maxlen c k
  · split
    · rfl
    · split <;> rfl

theorem LruCache.put_len_le_lru {c : LruCache} (h : c.list.length ≤ c.maxlen)
    (k : Key) : ((c.put k).1).list.length ≤ c.maxlen := by
  simp only [LruCache.put]
  split
  · rw [LruCache.get_fst_list_length]; exact h
  · split
    · rename_i hle
      simpa using hle
    · split
      · simp
      · simp only [List.length_dropLast_cons]
        exact h

theorem LruCache.run_bounded_lru (ks : List Key) :
    ∀ c : LruCache, c.list.length ≤ c.maxlen →
      (c.run ks).list.length ≤ c.maxlen ∧ (c.run ks).maxlen = c.maxlen := by
  induction ks with
  | nil => intro c h; exact ⟨h, rfl⟩
  | cons k ks ih =>
    intro c h
    have hml := LruCache.put_fst_maxlen_lru c k
    have hrec := ih ((c.put k).1) (by rw [hml]; exact LruCache.put_len_le_lru h k)
    rw [hml] at hrec
    simpa only [LruCache.run, List.foldl_cons] using hrec

/-! ## FifoCache lemmas -/

theorem FifoCache.put_fst_maxlen_fifo (c : FifoCache) (k : Key) :
    ((c.put k).1).maxlen = c.maxlen := by
  simp only [FifoCache.put]
  split <;> split <;> rfl

theorem FifoCache.put_len_le_fifo {c : FifoCache} (h : c.d.length ≤ c.maxlen)
    (k : Key) : ((c.put k).1).d.length ≤ c.maxlen := by
  simp only [FifoCache.put]
  by_cases hmem : k ∈ c.d
  · simp only [if_pos hmem]
    split
    · simp only [List.length_dropLast]
      omega
    · exact h
  · simp only [if_neg hmem]
    split
    · simp only [List.length_dropLast_cons]
      exact h
    · rename_i hle
      exact Nat.not_lt.mp hle

theorem FifoCache.run_bounded_fifo (ks : List Key) :
    ∀ c : FifoCache, c.d.length ≤ c.maxlen →
      (c.run ks).d.length ≤ c.maxlen ∧ (c.run ks).maxlen = c.maxlen := by
  induction ks with
  | nil => intro c h; exact ⟨h, rfl⟩
  | cons k ks ih =>
    intro c h
    have hml := FifoCache.put_fst_maxlen_fifo c k
    have hrec := ih ((c.put k).1) (by rw [hml]; exact FifoCache.put_len_le_fifo h k)
    rw [hml] at hrec
    simpa only [FifoCache.run, List.foldl_cons] using hrec

/-! ## LfuCache lemmas -/

theorem LfuCache.put_fst_maxlen_lfu (c : LfuCache) (k : Key) :
    ((c.put k).1).maxlen = c.maxlen := by
  simp only [LfuCache.put]
  split
  · rfl
  · split
    · split <;> rfl
    · rfl

theorem LfuCache.put_len_le_lfu {c : LfuCache} (h : c.cache.length ≤ c.maxlen)
    (k : Key) : ((c.put k).1).cache.length ≤ c.maxlen := by
  simp only [LfuCache.put]
  split
  · exact h
  · split
    · split
      · rename_i m hm
        have hmem : m ∈ c.cache ++ [(k, 1, c.t + 1)] := (minEntry_spec hm).1
        have hlen : ((c.cache ++ [(k, 1, c.t + 1)]).eraseP
              (fun e : Key × Nat × Nat => e.1 == m.1)).length
            = (c.cache ++ [(k, 1, c.t + 1)]).length - 1 :=
          List.length_eraseP_of_mem hmem (by simp)
        simp only [hlen, List.length_append, List.length_cons, List.length_nil]
        omega
      · rename_i hm
        exfalso
        obtain ⟨m, hsome⟩ :=
          minEntry_isSome (l := c.cache ++ [(k, 1, c.t + 1)]) (by simp)
        rw [hsome] at hm
        exact Option.noConfusion hm
    · rename_i hhas hle
      exact Nat.not_lt.mp hle

theorem LfuCache.run_bounded_lfu (ks : List Key) :
    ∀ c : LfuCache, c.cache.length ≤ c.maxlen →
      (c.run ks).cache.length ≤ c.maxlen ∧ (c.run ks).maxlen = c.maxlen := by
  induction ks with
  | nil => intro c h; exact ⟨h, rfl⟩
  | cons k ks ih =>
    intro c h
    have hml := LfuCache.put_fst_maxlen_lfu c k
    have hrec := ih ((c.put k).1) (by rw [hml]; exact LfuCache.put_len_le_lfu h k)
    rw [hml] at hrec
    simpa only [LfuCache.run, List.foldl_cons] using hrec

/-- A list of keys is a permutation of any member consed onto the list
with that member erased. -/
theorem perm_cons_erase_key {a : Key} {l : List Key} (h : a ∈ l) :
    l.Perm (a :: l.erase a) := by
  induction l with
  | nil => cases h
  | cons x t ih =>
    by_cases hx : x = a
    · subst hx
      rw [List.erase_cons_head]
    · have hmem : a ∈ t := by
        rcases List.mem_cons.mp h with h1 | h1
        · exact absurd h1.symm hx
        · exact h1
      rw [List.erase_cons_tail (by simp [hx])]
      exact ((ih hmem).cons x).trans (List.Perm.swap a x _)

/-! ## RandCache lemmas -/

theorem RandCache.len_le_maxlen {c : RandCache} (h : c.WF) :
    c.cache.length ≤ c.maxlen := by
  obtain ⟨ha, _, hp⟩ := h
  have hlen := hp.length_eq
  rw [List.length_take, List.length_map] at hlen
  omega

theorem RandCache.wf_put {c : RandCache} (h : c.WF) (k : Key) (g : Rng) :
    (((c.put k g).1).1).WF ∧ (((c.put k g).1).1).maxlen = c.maxlen := by
  obtain ⟨ha, hnd, hp⟩ := h
  simp only [RandCache.put]
  split
  · exact ⟨⟨ha, hnd, hp⟩, rfl⟩
  · rename_i hk
    split
    · rename_i hfull
      by_cases hml : c.maxlen = 0
      · have haempty : c.a = [] :=
          List.eq_nil_of_length_eq_zero (ha.trans hml)
        have hgd : c.a.getD (pyRandint 0 (c.maxlen - 1) g).1 none = none := by
          rw [haempty]
          simp
        rw [hgd]
        exact ⟨⟨ha, hnd, hp⟩, rfl⟩
      · have hpos : 0 < c.maxlen := Nat.pos_of_ne_zero hml
        have hilt : (pyRandint 0 (c.maxlen - 1) g).1 < c.maxlen := by
          simp only [pyRandint, Nat.zero_add]
          have heq : c.maxlen - 1 + 1 - 0 = c.maxlen := by omega
          rw [heq]
          exact Nat.mod_lt _ hpos
        have hia : (pyRandint 0 (c.maxlen - 1) g).1 < c.a.length := by
          rw [ha]; exact hilt
        have htake : c.a.take c.cache.length = c.a := by
          rw [hfull, ← ha, List.take_length]
        have hperm : c.a.Perm (c.cache.map some) := htake ▸ hp
        have hmem : c.a[(pyRandint 0 (c.maxlen - 1) g).1] ∈ c.cache.map some :=
          hperm.mem_iff.mp (List.getElem_mem hia)
        obtain ⟨ev, hev_mem, hev⟩ := List.mem_map.mp hmem
        have hgetD : c.a.getD (pyRandint 0 (c.maxlen - 1) g).1 none = some ev := by
          rw [List.getD_eq_getElem?_getD, List.getElem?_eq_getElem hia]
          simpa using hev.symm
        rw [hgetD]
        refine ⟨⟨by simp [ha], ?_, ?_⟩, rfl⟩
        · exact List.nodup_cons.mpr
            ⟨fun hk2 => hk (List.mem_of_mem_erase hk2), hnd.erase ev⟩
        · have hev_pos : 0 < c.cache.length := List.length_pos.mpr
            (List.ne_nil_of_mem hev_mem)
          have hlen_cons : (k :: c.cache.erase ev).length = c.maxlen := by
            simp only [List.length_cons, List.length_erase_of_mem hev_mem]
            omega
          have hset_len : (c.a.set (pyRandint 0 (c.maxlen - 1) g).1 (some k)).length
              = c.maxlen := by simp [ha]
          rw [show (k :: c.cache.erase ev).length = c.maxlen from hlen_cons]
          rw [List.take_of_length_le (le_of_eq hset_len)]
          have h1 := set_perm_cons_eraseIdx c.a (pyRandint 0 (c.maxlen - 1) g).1
            (some k) hia
          have hc1 : (some ev :: c.a.eraseIdx (pyRandint 0 (c.maxlen - 1) g).1).Perm
              c.a := by
            have := perm_cons_getElem_eraseIdx c.a (pyRandint 0 (c.maxlen - 1) g).1 hia
            rw [← hev] at this
            exact this.symm
          have hc2 : (c.cache.map some).Perm
              (some ev :: (c.cache.erase ev).map some) := by
            have := (perm_cons_erase_key hev_mem).map some
            simpa using this
          have h5 : (c.a.eraseIdx (pyRandint 0 (c.maxlen - 1) g).1).Perm
              ((c.cache.erase ev).map some) :=
            (hc1.trans (hperm.trans hc2)).cons_inv
          simpa only [List.map_cons] using h1.trans (h5.cons (some k))
    · rename_i hnotfull
      have hlt : c.cache.length < c.maxlen :=
        Nat.lt_of_le_of_ne (RandCache.len_le_maxlen ⟨ha, hnd, hp⟩) hnotfull
      have hlen_a : c.cache.length < c.a.length := by rw [ha]; exact hlt
      refine ⟨⟨by simp [ha], List.nodup_cons.mpr ⟨hk, hnd⟩, ?_⟩, rfl⟩
      have hlen_take : (c.a.take c.cache.length).length = c.cache.length := by
        rw [List.length_take]; omega
      have hstep1 : (c.a.set c.cache.length (some k)).take (c.cache.length + 1)
          = (c.a.take (c.cache.length + 1)).set c.cache.length (some k) :=
        List.set_take
      have hstep2 : c.a.take (c.cache.length + 1)
          = c.a.take c.cache.length ++ [c.a[c.cache.length]] := by
        rw [← List.take_concat_get c.a c.cache.length hlen_a]
        simp [List.concat_eq_append]
      have hstep3 : (c.a.take c.cache.length ++ [c.a[c.cache.length]]).set
            c.cache.length (some k)
          = c.a.take c.cache.length ++ [some k] := by
        have := set_append_singleton (c.a.take c.cache.length)
          c.a[c.cache.length] (some k)
        rwa [hlen_take] at this
      simp only [List.length_cons, List.map_cons]
      rw [hstep1, hstep2, hstep3]
      exact (hp.append_right [some k]).trans (List.perm_append_singleton _ _)

theorem RandCache.run_wf (ks : List Key) :
    ∀ (c : RandCache) (g : Rng), c.WF →
      ((c.run g ks).1).WF ∧ ((c.run g ks).1).maxlen = c.maxlen := by
  induction ks with
  | nil => intro c g h; exact ⟨h, rfl⟩
  | cons k ks ih =>
    intro c g h
    have hstep := RandCache.wf_put h k g
    have hrec := ih (((c.put k g).1).1) (((c.put k g).1).2) hstep.1
    rw [hstep.2] at hrec
    simpa only [RandCache.run, List.foldl_cons] using hrec

/-! ## Claim C1 -/

/-- C1: every policy (LRU, LFU, FIFO, RAND) constructed with capacity
C > 0 keeps its size at most C after every insertion: construction with
capacity C yields the empty state of capacity C, and running any finite
sequence of put calls from it leaves at most C resident keys.
Quantifying over all key sequences covers every intermediate point of a
longer sequence, so the bound holds after every call. -/
theorem claim_C1_size_le_capacity (C : Nat) (hC : 0 < C) (ks : List Key) (g : Rng) :
    LruCache.init (C : Int) = .ok { list := [], maxlen := C } ∧
    (LruCache.run { list := [], maxlen := C } ks).list.length ≤ C ∧
    LfuCache.init (C : Int) = .ok { cache := [], t := 0, maxlen := C } ∧
    (LfuCache.run { cache := [], t := 0, maxlen := C } ks).cache.length ≤ C ∧
    FifoCache.init (C : Int) = .ok { d := [], maxlen := C } ∧
    (FifoCache.run { d := [], maxlen := C } ks).d.length ≤ C ∧
    RandCache.init (C : Int)
      = .ok { cache := [], a := List.replicate C none, maxlen := C } ∧
    ((RandCache.run { cache := [], a := List.replicate C none, maxlen := C }
        g ks).1).cache.length ≤ C := by
  have hCne : ¬((C : Int) ≤ 0) := by omega
  have hCne2 : ¬((C : Int) < 0) := by omega
  refine ⟨?_, ?_, ?_, ?_, ?_, ?_, ?_, ?_⟩
  · simp [LruCache.init, hCne]
  · exact (LruCache.run_bounded_lru ks { list := [], maxlen := C } (by simp)).1
  · simp [LfuCache.init, hCne]
  · exact (LfuCache.run_bounded_lfu ks { cache := [], t := 0, maxlen := C } (by simp)).1
  · simp [FifoCache.init, hCne]
  · exact (FifoCache.run_bounded_fifo ks { d := [], maxlen := C } (by simp)).1
  · simp [RandCache.init, hCne, hCne2]
  · have hwf : RandCache.WF { cache := [], a := List.replicate C none, maxlen := C } :=
      ⟨by simp, List.nodup_nil, by simp⟩
    have hrun := RandCache.run_wf ks
      { cache := [], a := List.replicate C none, maxlen := C } g hwf
    have := RandCache.len_le_maxlen hrun.1
    rw [hrun.2] at this
    exact this

/-- Witness for C1 at capacity 2 and a concrete key sequence. -/
theorem claim_C1_size_le_capacity_witness :
    0 < 2 ∧ (LruCache.run { list := [], maxlen := 2 } [5, 6, 7, 5, 8]).list.length ≤ 2 :=
  ⟨Nat.zero_lt_succ 1,
    (claim_C1_size_le_capacity 2 (by decide) [5, 6, 7, 5, 8] 0).2.1⟩

/-! ## Claims C2 and C10 -/

/-- Erasing the entry of a key commutes with projecting the keys. -/
theorem eraseP_map_fst (l : List (Key × Nat × Nat)) (e : Key) :
    (l.eraseP (fun x => x.1 == e)).map (fun x => x.1)
      = (l.map (fun x => x.1)).erase e := by
  induction l with
  | nil => rfl
  | cons x t ih =>
    rw [List.eraseP_cons, List.map_cons]
    by_cases hx : x.1 = e
    · have hbeq : (x.1 == e) = true := by simp [hx]
      simp only [hbeq, cond_true]
      rw [hx, List.erase_cons_head]
    · have hbeq : (x.1 == e) = false := by simp [hx]
      simp only [hbeq, cond_false, List.map_cons]
      rw [List.erase_cons_tail (by simp [hx]), ih]

/-- Keys absent from the dict never test equal under has. -/
theorem LfuCache.not_mem_of_has_false {c : LfuCache} {k : Key}
    (habs : c.has k = false) : ∀ e ∈ c.cache, e.1 ≠ k := by
  intro e he hk
  rw [LfuCache.has, List.any_eq_false] at habs
  exact habs e he (by simp [hk])

/-- The sequence numbers of the dict extended with the fresh entry stay
distinct: the new sequence number exceeds every stored one. -/
theorem LfuCache.seq_nodup_extend {c : LfuCache} (hwf : c.WF) (k : Key) :
    ((c.cache ++ [(k, 1, c.t + 1)]).map (fun e : Key × Nat × Nat => e.2.2)).Nodup := by
  obtain ⟨_, hseqs, hle⟩ := hwf
  rw [List.map_append]
  refine List.Nodup.append hseqs (by simp) ?_
  intro a ha hb
  simp only [List.map_cons, List.map_nil, List.mem_singleton] at hb
  subst hb
  rw [List.mem_map] at ha
  obtain ⟨e1, he1, heq⟩ := ha
  have heq2 : e1.2.2 = c.t + 1 := heq
  have := hle e1 he1
  omega

/-- The keys of the dict extended with a fresh key stay distinct. -/
theorem LfuCache.key_nodup_extend {c : LfuCache} (hwf : c.WF) {k : Key}
    (habs : c.has k = false) :
    ((c.cache ++ [(k, 1, c.t + 1)]).map (fun e : Key × Nat × Nat => e.1)).Nodup := by
  obtain ⟨hkeys, _, _⟩ := hwf
  rw [List.map_append]
  refine List.Nodup.append hkeys (by simp) ?_
  intro a ha hb
  simp only [List.map_cons, List.map_nil, List.mem_singleton] at hb
  subst hb
  rw [List.mem_map] at ha
  obtain ⟨e1, he1, heq⟩ := ha
  have heq2 : e1.1 = a := heq
  exact LfuCache.not_mem_of_has_false habs e1 he1 heq2

/-- The computation step of put on a miss at full capacity: the fresh
entry is appended and the minimal entry is erased and returned. -/
theorem LfuCache.put_miss_full {c : LfuCache} {k : Key} {m : Key × Nat × Nat}
    (habs : c.has k = false) (hfull : c.maxlen ≤ c.cache.length)
    (hm : minEntry (c.cache ++ [(k, 1, c.t + 1)]) = some m) :
    c.put k = (⟨(c.cache ++ [(k, 1, c.t + 1)]).eraseP (fun e => e.1 == m.1),
      c.t + 1, c.maxlen⟩, some m.1) := by
  have hgt : (c.cache ++ [(k, 1, c.t + 1)]).length > c.maxlen := by
    simp only [List.length_append, List.length_cons, List.length_nil]
    omega
  simp only [LfuCache.put]
  split
  · rename_i hhit
    rw [habs] at hhit
    exact absurd hhit Bool.false_ne_true
  · split
    · rename_i m2 heq
      rw [hm] at heq
      rw [Option.some.inj heq]
    · rename_i heq
      rw [hm] at heq
      exact Option.noConfusion heq

/-- C2: when put of an absent key pushes LfuCache past its capacity, the
evicted and returned key is the one whose (frequency, sequence) pair is
lexicographically smallest among all entries including the fresh one, and
exactly that key is removed from the dict. -/
theorem claim_C2_lfu_evicts_min_pair (c : LfuCache) (k : Key) (hwf : c.WF)
    (habs : c.has k = false) (hfull : c.maxlen ≤ c.cache.length) :
    ∃ m : Key × Nat × Nat,
      (c.put k).2 = some m.1 ∧
      m ∈ c.cache ++ [(k, 1, c.t + 1)] ∧
      (∀ x ∈ c.cache ++ [(k, 1, c.t + 1)], x.1 ≠ m.1 → pairLt m.2 x.2 = true) ∧
      ((c.put k).1).cache.map (fun e : Key × Nat × Nat => e.1)
        = ((c.cache ++ [(k, 1, c.t + 1)]).map
            (fun e : Key × Nat × Nat => e.1)).erase m.1 := by
  obtain ⟨m, hm⟩ :=
    minEntry_isSome (l := c.cache ++ [(k, 1, c.t + 1)]) (by simp)
  obtain ⟨hm_mem, hm_min⟩ := minEntry_spec hm
  have hstep := LfuCache.put_miss_full habs hfull hm
  have hseq1 := LfuCache.seq_nodup_extend hwf k
  refine ⟨m, by rw [hstep], hm_mem, ?_, ?_⟩
  · intro x hx hne
    have hfalse := hm_min x hx
    have hne_seq : x.2.2 ≠ m.2.2 := by
      intro heq
      have hxm : x = m := eq_of_nodup_map_eq hseq1 hx hm_mem heq
      exact hne (by rw [hxm])
    rw [pairLt_eq_false_iff] at hfalse
    rw [pairLt_iff]
    omega
  · rw [hstep]
    exact eraseP_map_fst (c.cache ++ [(k, 1, c.t + 1)]) m.1

/-- Witness for C2 on a concrete two-entry cache at capacity 2. -/
theorem claim_C2_lfu_evicts_min_pair_witness :
    LfuCache.WF { cache := [(10, 1, 1), (11, 2, 2)], t := 2, maxlen := 2 } ∧
    LfuCache.has { cache := [(10, 1, 1), (11, 2, 2)], t := 2, maxlen := 2 } 12
      = false ∧
    (∃ m : Key × Nat × Nat,
      (LfuCache.put { cache := [(10, 1, 1), (11, 2, 2)], t := 2, maxlen := 2 }
          12).2 = some m.1 ∧
      m ∈ [(10, 1, 1), (11, 2, 2)] ++ [(12, 1, 3)] ∧
      (∀ x ∈ [(10, 1, 1), (11, 2, 2)] ++ [(12, 1, 3)],
        x.1 ≠ m.1 → pairLt m.2 x.2 = true) ∧
      ((LfuCache.put { cache := [(10, 1, 1), (11, 2, 2)], t := 2, maxlen := 2 }
          12).1).cache.map (fun e : Key × Nat × Nat => e.1)
        = (([(10, 1, 1), (11, 2, 2)] ++ [(12, 1, 3)]).map
            (fun e : Key × Nat × Nat => e.1)).erase m.1) :=
  ⟨by decide, by decide,
    claim_C2_lfu_evicts_min_pair
      { cache := [(10, 1, 1), (11, 2, 2)], t := 2, maxlen := 2 } 12
      (by decide) (by decide) (by decide)⟩

/-- C10: on a full LfuCache whose resident keys all have frequency at
least 2, put of an absent key inserts it with frequency 1 and the next
sequence number and immediately evicts that same key, leaving the
resident entries untouched. -/
theorem claim_C10_lfu_self_eviction (c : LfuCache) (k : Key) (_hwf : c.WF)
    (habs : c.has k = false) (hfull : c.maxlen ≤ c.cache.length)
    (hfreq : ∀ e ∈ c.cache, 2 ≤ e.2.1) :
    (c.put k).2 = some k ∧ ((c.put k).1).cache = c.cache ∧
      ((c.put k).1).t = c.t + 1 := by
  obtain ⟨m, hm⟩ :=
    minEntry_isSome (l := c.cache ++ [(k, 1, c.t + 1)]) (by simp)
  obtain ⟨hm_mem, hm_min⟩ := minEntry_spec hm
  have hmk : m = (k, 1, c.t + 1) := by
    rcases List.mem_append.mp hm_mem with hin | hin
    · exfalso
      have h2 := hfreq m hin
      have hx := hm_min (k, 1, c.t + 1) (by simp)
      rw [pairLt_eq_false_iff] at hx
      simp only at hx
      omega
    · simpa using hin
  have hstep := LfuCache.put_miss_full habs hfull hm
  have hnotin := LfuCache.not_mem_of_has_false habs
  have herase : (c.cache ++ [(k, 1, c.t + 1)]).eraseP
      (fun e : Key × Nat × Nat => e.1 == m.1) = c.cache := by
    rw [hmk]
    rw [List.eraseP_append_right]
    · simp
    · intro b hb
      simp only [Bool.not_eq_true, beq_eq_false_iff_ne, ne_eq]
      exact hnotin b hb
  refine ⟨?_, ?_, ?_⟩
  · rw [hstep, hmk]
  · rw [hstep]
    exact herase
  · rw [hstep]

/-- Witness for C10 on a full cache with all frequencies at least 2. -/
theorem claim_C10_lfu_self_eviction_witness :
    LfuCache.WF { cache := [(10, 2, 1), (11, 3, 2)], t := 2, maxlen := 2 } ∧
    ((LfuCache.put { cache := [(10, 2, 1), (11, 3, 2)], t := 2, maxlen := 2 }
        12).2 = some 12 ∧
      ((LfuCache.put { cache := [(10, 2, 1), (11, 3, 2)], t := 2, maxlen := 2 }
          12).1).cache = [(10, 2, 1), (11, 3, 2)] ∧
      ((LfuCache.put { cache := [(10, 2, 1), (11, 3, 2)], t := 2, maxlen := 2 }
          12).1).t = 3) :=
  ⟨by decide,
    claim_C10_lfu_self_eviction
      { cache := [(10, 2, 1), (11, 3, 2)], t := 2, maxlen := 2 } 12
      (by decide) (by decide) (by decide) (by decide)⟩

/-! ## Claim C5 -/

/-- C5: for LruCache, get of a resident key makes it the first element of
dump, and put of an absent key on a full cache evicts and returns exactly
the last element of the dump taken just before the call, the new list
being the key pushed on top with the old bottom dropped. -/
theorem claim_C5_lru_recency (c : LruCache) (k : Key) :
    (k ∈ c.list → ((c.get k).1).list.head? = some k ∧ (c.get k).2 = true) ∧
    (k ∉ c.list → c.list.length = c.maxlen → 0 < c.maxlen →
      (c.put k).2 = c.dump.getLast? ∧ (c.put k).2.isSome = true ∧
      ((c.put k).1).list = k :: c.list.dropLast) := by
  constructor
  · intro hmem
    unfold LruCache.get
    rw [if_pos hmem]
    by_cases hhead : c.list.head? = some k
    · rw [if_pos hhead]
      exact ⟨hhead, rfl⟩
    · rw [if_neg hhead]
      exact ⟨rfl, rfl⟩
  · intro habs hlen hpos
    have hne : c.list ≠ [] := by
      intro h
      rw [h] at hlen
      simp only [List.length_nil] at hlen
      omega
    have hgetm := LruCache.get_miss habs
    have h1 : ¬((k :: c.list).length ≤ c.maxlen) := by
      simp only [List.length_cons]
      omega
    have h2 : ¬((k :: c.list).length = 1) := by
      simp only [List.length_cons]
      omega
    simp only [LruCache.put, hgetm]
    rw [if_neg Bool.false_ne_true, if_neg h1, if_neg h2]
    refine ⟨?_, ?_, ?_⟩
    · simp only [LruCache.dump]
      cases hl : c.list with
      | nil => exact absurd hl hne
      | cons b l2 => exact List.getLast?_cons_cons
    · rw [List.getLast?_eq_getLast_of_ne_nil (List.cons_ne_nil _ _)]
      rfl
    · simp only
      rw [List.dropLast_cons_of_ne_nil hne]

/-- Witness for C5: a resident key for the get half and a full cache with
an absent key for the put half. -/
theorem claim_C5_lru_recency_witness :
    (6 ∈ ({ list := [5, 6], maxlen := 2 } : LruCache).list ∧
      ((LruCache.get { list := [5, 6], maxlen := 2 } 6).1).list.head? = some 6) ∧
    (7 ∉ ({ list := [5, 6], maxlen := 2 } : LruCache).list ∧
      (LruCache.put { list := [5, 6], maxlen := 2 } 7).2
        = (LruCache.dump { list := [5, 6], maxlen := 2 }).getLast? ∧
      ((LruCache.put { list := [5, 6], maxlen := 2 } 7).1).list = [7, 5]) :=
  ⟨⟨by decide,
      ((claim_C5_lru_recency { list := [5, 6], maxlen := 2 } 6).1 (by decide)).1⟩,
    ⟨by decide,
      ((claim_C5_lru_recency { list := [5, 6], maxlen := 2 } 7).2 (by decide)
          (by decide) (by decide)).1,
      by
        have := ((claim_C5_lru_recency { list := [5, 6], maxlen := 2 } 7).2
          (by decide) (by decide) (by decide)).2.2
        simpa using this⟩⟩

/-! ## Claim C4 -/

/-- C4 (amended): clear empties every policy observationally: size 0,
empty dump, has false for every key, capacity unchanged; LruCache,
FifoCache and NullCache are moreover state-identical to a fresh instance.
However LfuCache.clear keeps the sequence counter t and RandCache.clear
keeps the slot array contents, so those cleared states are not
state-identical to freshly constructed ones. -/
theorem claim_C4_clear_amended (c1 : LruCache) (c2 : LfuCache) (c3 : FifoCache)
    (c4 : RandCache) (c5 : NullCache) (k : Key) :
    (c1.clear = { list := [], maxlen := c1.maxlen } ∧ c1.clear.len = 0 ∧
      c1.clear.dump = [] ∧ c1.clear.has k = false) ∧
    (c2.clear.cache = [] ∧ c2.clear.len = 0 ∧ c2.clear.dump = [] ∧
      c2.clear.has k = false ∧ c2.clear.maxlen = c2.maxlen ∧ c2.clear.t = c2.t) ∧
    (c3.clear = { d := [], maxlen := c3.maxlen } ∧ c3.clear.len = 0 ∧
      c3.clear.dump = [] ∧ c3.clear.has k = false) ∧
    (c4.clear.cache = [] ∧ c4.clear.len = 0 ∧ c4.clear.dump = [] ∧
      c4.clear.has k = false ∧ c4.clear.maxlen = c4.maxlen ∧ c4.clear.a = c4.a) ∧
    (c5.clear = c5 ∧ c5.clear.len = 0) := by
  refine ⟨⟨rfl, rfl, rfl, ?_⟩, ⟨rfl, rfl, ?_, ?_, rfl, rfl⟩,
    ⟨rfl, rfl, rfl, ?_⟩, ⟨rfl, rfl, rfl, ?_, rfl, rfl⟩, rfl, rfl⟩
  · simp [LruCache.clear, LruCache.has]
  · simp [LfuCache.clear, LfuCache.dump]
  · simp [LfuCache.clear, LfuCache.has]
  · simp [FifoCache.clear, FifoCache.has]
  · simp [RandCache.clear, RandCache.has]

/-- C4 counterexample: after one put, clear on an LfuCache of capacity 1
does not restore the freshly constructed state (the sequence counter t
stays at 1 instead of 0), refuting state-wise identity with a fresh
instance. -/
theorem claim_C4_clear_counterexample :
    LfuCache.init 1 = .ok { cache := [], t := 0, maxlen := 1 } ∧
    LfuCache.clear ((LfuCache.put { cache := [], t := 0, maxlen := 1 } 5).1)
      ≠ { cache := [], t := 0, maxlen := 1 } := by
  constructor
  · rfl
  · decide

/-! ## Claims C3 and C6 -/

/-- C3 (code bug): the keyval invariant fails on the falsy key 0.
Wrapping a fresh FifoCache of capacity 1, kv_put 0 then kv_put 1 makes
the inner put evict key 0, but the bare Python truthiness test skips the
removal from _vals: key 0 stays in the value map while it is no longer
resident in the inner cache, so the value map's key set is not the inner
resident key set. -/
theorem claim_C3_keyval_invariant_violated :
    ((kv_put FifoCache Nat FifoCache.put
        ((kv_put FifoCache Nat FifoCache.put
          { inner := { d := [], maxlen := 1 }, vals := [] } 0 10).1)
        1 20).1).vals.map (fun e : Key × Nat => e.1) = [0, 1] ∧
    ((kv_put FifoCache Nat FifoCache.put
        ((kv_put FifoCache Nat FifoCache.put
          { inner := { d := [], maxlen := 1 }, vals := [] } 0 10).1)
        1 20).1).inner.d = [1] ∧
    FifoCache.has (((kv_put FifoCache Nat FifoCache.put
        ((kv_put FifoCache Nat FifoCache.put
          { inner := { d := [], maxlen := 1 }, vals := [] } 0 10).1)
        1 20).1).inner) 0 = false := by
  decide

/-- C6 (code bug): the wrapped put reports the eviction of key 0, yet
kv_put returns None instead of the pair of key 0 and its stored value,
because the bare Python truthiness test treats the key 0 as no eviction. -/
theorem claim_C6_keyval_falsy_eviction :
    (FifoCache.put { d := [0], maxlen := 1 } 1).2 = some 0 ∧
    (kv_put FifoCache Nat FifoCache.put
        { inner := { d := [0], maxlen := 1 }, vals := [(0, 10)] } 1 20).2
      = none ∧
    (kv_put FifoCache Nat FifoCache.put
        { inner := { d := [5], maxlen := 1 }, vals := [(5, 10)] } 6 20).2
      = some (5, 10) := by
  decide

/-! ## Claim C7 -/

/-- C7 counterexample: the random source is shared process-wide.  On the
same full RandCache and the same prior global generator state, the key
evicted by put differs depending on whether a rand_insert_cache wrapper
was constructed (reseeding the global generator with seed 1) beforehand:
the wrapper construction changed another instance's draw. -/
theorem claim_C7_rng_not_instance_scoped_counterexample :
    (RandCache.put { cache := [2, 1], a := [some 1, some 2], maxlen := 2 } 3
        (randInsertRngAfter 1 0)).2
      ≠ (RandCache.put { cache := [2, 1], a := [some 1, some 2], maxlen := 2 } 3
          0).2 := by
  decide

/-- C7 (amended): the pseudorandom source is the process-wide random
module state, not an instance-scoped generator.  Constructing a
rand_insert_cache wrapper reseeds that shared state: the state after
construction is pySeed seed, independent of the prior state, so every
subsequent draw by any RandCache instance is determined by the wrapper's
seed; and each rand_put consumes one draw, advancing the same shared
state. -/
theorem claim_C7_rng_process_wide_amended (seed : Nat) (g g2 : Rng)
    (c : RandCache) (k : Key) (p : ℚ) (inner : FifoCache) :
    randInsertRngAfter seed g = randInsertRngAfter seed g2 ∧
    randInsertRngAfter seed g = pySeed seed ∧
    c.put k (randInsertRngAfter seed g) = c.put k (pySeed seed) ∧
    (rand_put FifoCache FifoCache.put p inner g k).1.2 = (pyRandom g).2 := by
  refine ⟨rfl, rfl, rfl, ?_⟩
  simp only [rand_put]
  split <;> rfl

/-! ## Claim C8 -/

theorem pyRandom_nonneg (g : Rng) : 0 ≤ (pyRandom g).1 := by
  simp only [pyRandom, rngNext]
  positivity

theorem pyRandom_lt_one (g : Rng) : (pyRandom g).1 < 1 := by
  simp only [pyRandom, rngNext]
  rw [div_lt_one (by positivity)]
  have h : (1103515245 * g + 12345) % 2 ^ 31 < 2 ^ 31 :=
    Nat.mod_lt _ (by norm_num)
  exact_mod_cast h

/-- With p = 0 every draw fails the comparison, so no rand_put in a
sequence ever touches the inner cache. -/
theorem randInsertRun_zero (σ : Type) (put : σ → Key → σ × Option Key) :
    ∀ (ks : List Key) (c : σ) (g : Rng),
      (randInsertRun σ put 0 c g ks).1 = c := by
  intro ks
  induction ks with
  | nil => intro c g; rfl
  | cons k0 ks ih =>
    intro c g
    simp only [randInsertRun, List.foldl_cons] at ih ⊢
    have h0 : (rand_put σ put 0 c g k0).1 = (c, (pyRandom g).2) := by
      simp only [rand_put]
      rw [if_neg (not_lt.mpr (pyRandom_nonneg g))]
    rw [h0]
    exact ih c (pyRandom g).2

/-- With p = 1 every draw passes the comparison, so the wrapped run
follows the unwrapped run state for state. -/
theorem randInsertRun_one (σ : Type) (put : σ → Key → σ × Option Key) :
    ∀ (ks : List Key) (c : σ) (g : Rng),
      (randInsertRun σ put 1 c g ks).1 = innerRun σ put c ks := by
  intro ks
  induction ks with
  | nil => intro c g; rfl
  | cons k0 ks ih =>
    intro c g
    simp only [randInsertRun, innerRun, List.foldl_cons] at ih ⊢
    have h1 : (rand_put σ put 1 c g k0).1 = ((put c k0).1, (pyRandom g).2) := by
      simp only [rand_put]
      rw [if_pos (pyRandom_lt_one g)]
    rw [h1]
    exact ih (put c k0).1 (pyRandom g).2

/-- C8: for the probabilistic insertion wrapper over any inner put, with
p = 0 a put never changes the inner cache and reports no eviction, across
any sequence of calls; with p = 1 every put delegates to the inner put,
returning its eviction, and the wrapped run is state for state identical
to the unwrapped cache, so every observable (size, membership, dump) of
the deterministic inner cache coincides. -/
theorem claim_C8_prob_insertion_edge_cases (σ : Type)
    (put : σ → Key → σ × Option Key) (c : σ) (g : Rng) (ks : List Key)
    (k : Key) :
    (rand_put σ put 0 c g k).1.1 = c ∧
    (rand_put σ put 0 c g k).2 = none ∧
    (randInsertRun σ put 0 c g ks).1 = c ∧
    (rand_put σ put 1 c g k).1.1 = (put c k).1 ∧
    (rand_put σ put 1 c g k).2 = (put c k).2 ∧
    (randInsertRun σ put 1 c g ks).1 = innerRun σ put c ks := by
  have h0 : rand_put σ put 0 c g k = ((c, (pyRandom g).2), none) := by
    simp only [rand_put]
    rw [if_neg (not_lt.mpr (pyRandom_nonneg g))]
  have h1 : rand_put σ put 1 c g k
      = (((put c k).1, (pyRandom g).2), (put c k).2) := by
    simp only [rand_put]
    rw [if_pos (pyRandom_lt_one g)]
  refine ⟨by rw [h0], by rw [h0], randInsertRun_zero σ put ks c g,
    by rw [h1], by rw [h1], randInsertRun_one σ put ks c g⟩

/-! ## Claim C9 -/

/-- C9: construction raises exactly on invalid configuration.  Every
non-Null policy constructor succeeds iff the capacity is positive and
raises a ValueError iff the capacity is at most 0 (for RandCache the
negative case is the ValueError np.empty raises before the explicit
check); rand_insert_cache raises a TypeError iff the supplied object is
not a Cache and, on a Cache, a ValueError iff p is outside the unit
interval, succeeding otherwise with the copied inner cache and the
reseeded global generator; keyval_cache raises a TypeError iff the
supplied object is not a Cache and succeeds otherwise with an empty value
map. -/
theorem claim_C9_construction_errors (mlen : Int) (p : ℚ) (b : Bool)
    (inner : FifoCache) (g : Rng) :
    (isOk (LruCache.init mlen) = true ↔ 0 < mlen) ∧
    (isValueError (LruCache.init mlen) = true ↔ mlen ≤ 0) ∧
    (isOk (LfuCache.init mlen) = true ↔ 0 < mlen) ∧
    (isValueError (LfuCache.init mlen) = true ↔ mlen ≤ 0) ∧
    (isOk (FifoCache.init mlen) = true ↔ 0 < mlen) ∧
    (isValueError (FifoCache.init mlen) = true ↔ mlen ≤ 0) ∧
    (isOk (RandCache.init mlen) = true ↔ 0 < mlen) ∧
    (isValueError (RandCache.init mlen) = true ↔ mlen ≤ 0) ∧
    (isOk (rand_insert_cache FifoCache b p 0 inner g) = true
      ↔ (b = true ∧ 0 ≤ p ∧ p ≤ 1)) ∧
    (isTypeError (rand_insert_cache FifoCache b p 0 inner g) = true
      ↔ b = false) ∧
    (isValueError (rand_insert_cache FifoCache true p 0 inner g) = true
      ↔ (p < 0 ∨ 1 < p)) ∧
    (rand_insert_cache FifoCache true p 0 inner g = .ok (inner, pySeed 0)
      ↔ (0 ≤ p ∧ p ≤ 1)) ∧
    (isOk (keyval_cache FifoCache Nat b inner) = true ↔ b = true) ∧
    (keyval_cache FifoCache Nat true inner = .ok { inner := inner, vals := [] }) := by
  refine ⟨?_, ?_, ?_, ?_, ?_, ?_, ?_, ?_, ?_, ?_, ?_, ?_, ?_, ?_⟩
  · simp only [LruCache.init]
    split <;> simp [isOk] <;> omega
  · simp only [LruCache.init]
    split <;> simp [isValueError] <;> omega
  · simp only [LfuCache.init]
    split <;> simp [isOk] <;> omega
  · simp only [LfuCache.init]
    split <;> simp [isValueError] <;> omega
  · simp only [FifoCache.init]
    split <;> simp [isOk] <;> omega
  · simp only [FifoCache.init]
    split <;> simp [isValueError] <;> omega
  · simp only [RandCache.init]
    split
    · simp [isOk]; omega
    · split <;> simp [isOk] <;> omega
  · simp only [RandCache.init]
    split
    · simp [isValueError]; omega
    · split <;> simp [isValueError] <;> omega
  · simp only [rand_insert_cache]
    cases b with
    | false => simp [isOk]
    | true =>
      simp only [Bool.not_true, Bool.false_eq_true, if_false]
      split
      · rename_i hp
        simp only [isOk, Bool.false_eq_true, false_iff]
        intro hc
        rcases hp with h1 | h1
        · exact absurd hc.2.1 (not_le.mpr h1)
        · exact absurd hc.2.2 (not_le.mpr h1)
      · rename_i hp
        push_neg at hp
        simp [isOk, hp.1, hp.2]
  · simp only [rand_insert_cache]
    cases b with
    | false => simp [isTypeError]
    | true =>
      simp only [Bool.not_true, Bool.false_eq_true, if_false]
      split <;> simp [isTypeError]
  · simp only [rand_insert_cache]
    simp only [Bool.not_true, Bool.false_eq_true, if_false]
    split
    · rename_i hp
      simp only [isValueError, true_iff]
      exact hp
    · rename_i hp
      simp only [isValueError, Bool.false_eq_true, false_iff]
      exact hp
  · simp only [rand_insert_cache]
    simp only [Bool.not_true, Bool.false_eq_true, if_false]
    split
    · rename_i hp
      constructor
      · intro h
        exact Except.noConfusion h
      · intro hc
        rcases hp with h1 | h1
        · exact absurd hc.1 (not_le.mpr h1)
        · exact absurd hc.2 (not_le.mpr h1)
    · rename_i hp
      push_neg at hp
      simp [hp.1, hp.2]
  · simp only [keyval_cache]
    cases b with
    | false => simp [isOk]
    | true => simp [isOk]
  · simp only [keyval_cache]
    rfl
